import Mathlib

/-!
Verification development for the form-transmission protocol (src/form.py,
src/connection.py) and the commanding protocol (src/protocol/commanding.py)
of the network repository.

Python strings and byte strings are modeled as lists of characters
(`Str := List Char`): the framing layer treats the transported bytes as
atomic symbols (lines are delimited by the newline symbol, the appendix is
an opaque symbol block read by exact length), so one symbol type is enough
and keeps the embedding executable.  Loops of the source that walk a string
are written with an explicit fuel argument equal to the string length, so
that every definition is structurally recursive and evaluates inside the
kernel.
-/

abbrev Str : Type := List Char

def strOf (s : String) : Str := s.data

/-- Python str.split on the newline character, as used by Form.body_list and
FormTransmitterThread.send_body: splitting the empty string yields one empty
line, and a trailing newline yields a trailing empty line. -/
def splitLines : Str → List Str
  | [] => [[]]
  | c :: rest =>
    if c = '\n' then [] :: splitLines rest
    else
      match splitLines rest with
      | [] => [[c]]
      | l :: ls => (c :: l) :: ls

/-- Python "\n".join on a list of lines, as used by FormReceiverThread
receive_body and by Form.evaluate_body. -/
def joinLines : List Str → Str
  | [] => []
  | [l] => l
  | l :: ls => l ++ '\n' :: joinLines ls

/-- Python str.replace pattern replacement: every non-overlapping occurrence,
scanning left to right.  The fuel argument is instantiated with the length of
the subject string, which is enough because every step consumes at least one
character.  All uses in the source have a nonempty pattern. -/
def pyReplaceAux (p r : Str) : Nat → Str → Str
  | _, [] => []
  | 0, s => s
  | fuel+1, c :: tail =>
    if p ≠ [] ∧ p.isPrefixOf (c :: tail) then
      r ++ pyReplaceAux p r fuel ((c :: tail).drop p.length)
    else
      c :: pyReplaceAux p r fuel tail

def pyReplace (p r s : Str) : Str := pyReplaceAux p r s.length s

/-- Value of a decimal digit string (the usual left fold). -/
def digitsToNat (s : Str) : Nat :=
  s.foldl (fun a c => a * 10 + (c.toNat - 48)) 0

/-- The decimal digit character for a value below ten. -/
def digitChar : Nat → Char
  | 0 => '0' | 1 => '1' | 2 => '2' | 3 => '3' | 4 => '4'
  | 5 => '5' | 6 => '6' | 7 => '7' | 8 => '8' | _ => '9'

/-- Python str(int) on a natural number, with fuel (n+1 is always enough). -/
def natToDigitsAux : Nat → Nat → Str
  | 0, _ => []
  | fuel+1, n =>
    if n < 10 then [digitChar n]
    else natToDigitsAux fuel (n / 10) ++ [digitChar (n % 10)]

def natToDigits (n : Nat) : Str := natToDigitsAux (n + 1) n

/-- Python int(...) on the strings this protocol feeds it: a nonempty string
of decimal digits parses to its value, everything else (in particular the
empty string) raises ValueError, modeled as none.  (Signs, surrounding
whitespace and underscores never arise here.) -/
def int_parse (s : Str) : Option Nat :=
  if s ≠ [] ∧ s.all Char.isDigit then some (digitsToNat s) else none

/-- Python str.upper, on the ASCII strings this code applies it to. -/
def toUpperStr (s : Str) : Str := s.map Char.toUpper

theorem splitLines_ne_nil (s : Str) : splitLines s ≠ [] := by
  induction s with
  | nil => simp [splitLines]
  | cons c rest ih =>
    simp only [splitLines]
    by_cases h : c = '\n'
    · simp [h]
    · simp only [if_neg h]
      cases hs : splitLines rest with
      | nil => simp
      | cons l ls => simp

theorem joinLines_splitLines (s : Str) : joinLines (splitLines s) = s := by
  induction s with
  | nil => rfl
  | cons c rest ih =>
    by_cases h : c = '\n'
    · subst h
      simp only [splitLines, if_pos rfl]
      cases hs : splitLines rest with
      | nil => exact absurd hs (splitLines_ne_nil rest)
      | cons l ls => rw [hs] at ih; simp [joinLines, ih]
    · simp only [splitLines, if_neg h]
      cases hs : splitLines rest with
      | nil => exact absurd hs (splitLines_ne_nil rest)
      | cons l ls =>
        rw [hs] at ih
        cases ls with
        | nil => simp [joinLines] at ih ⊢; simp [ih]
        | cons l2 ls2 => simp [joinLines] at ih ⊢; simp [ih]

theorem splitLines_no_newline (s : Str) : ∀ l ∈ splitLines s, '\n' ∉ l := by
  induction s with
  | nil => intro l hl; simp [splitLines] at hl; simp [hl]
  | cons c rest ih =>
    intro l hl
    simp only [splitLines] at hl
    by_cases h : c = '\n'
    · rw [if_pos h] at hl
      rcases List.mem_cons.mp hl with rfl | hl
      · simp
      · exact ih l hl
    · rw [if_neg h] at hl
      cases hs : splitLines rest with
      | nil => exact absurd hs (splitLines_ne_nil rest)
      | cons t ts =>
        rw [hs] at hl
        rcases List.mem_cons.mp hl with rfl | hl
        · intro hmem
          rcases List.mem_cons.mp hmem with hc | hmem
          · exact h hc.symm
          · exact ih t (by rw [hs]; exact List.mem_cons_self t ts) hmem
        · exact ih l (by rw [hs]; exact List.mem_cons_of_mem t hl)

theorem splitLines_append (l rest : Str) (h : '\n' ∉ l) :
    splitLines (l ++ '\n' :: rest) = l :: splitLines rest := by
  induction l with
  | nil => simp [splitLines]
  | cons c cs ih =>
    have hc : c ≠ '\n' := fun hc => h (by simp [hc])
    have hcs : '\n' ∉ cs := fun hm => h (List.mem_cons_of_mem c hm)
    have step : splitLines (c :: (cs ++ '\n' :: rest)) =
        match splitLines (cs ++ '\n' :: rest) with
        | [] => [[c]]
        | l :: ls => (c :: l) :: ls := by
      simp only [splitLines, if_neg hc]
    rw [List.cons_append, step, ih hcs]

theorem splitLines_of_no_newline (l : Str) (h : '\n' ∉ l) :
    splitLines l = [l] := by
  induction l with
  | nil => rfl
  | cons c cs ih =>
    have hc : c ≠ '\n' := fun hc => h (by simp [hc])
    have hcs : '\n' ∉ cs := fun hm => h (List.mem_cons_of_mem c hm)
    simp only [splitLines, if_neg hc, ih hcs]

theorem splitLines_joinLines (ls : List Str) (hne : ls ≠ [])
    (h : ∀ l ∈ ls, '\n' ∉ l) : splitLines (joinLines ls) = ls := by
  induction ls with
  | nil => exact absurd rfl hne
  | cons l ls ih =>
    cases ls with
    | nil =>
      simp only [joinLines]
      exact splitLines_of_no_newline l (h l (List.mem_cons_self l []))
    | cons l2 ls2 =>
      have hstep : joinLines (l :: l2 :: ls2) = l ++ '\n' :: joinLines (l2 :: ls2) := rfl
      rw [hstep, splitLines_append l _ (h l (List.mem_cons_self l _)),
        ih (by simp) (fun x hx => h x (List.mem_cons_of_mem l hx))]

theorem pyReplaceAux_nil (p r : Str) (fuel : Nat) : pyReplaceAux p r fuel [] = [] := by
  cases fuel <;> rfl

theorem pyReplaceAux_cons (p r : Str) (fuel : Nat) (c : Char) (tail : Str) :
    pyReplaceAux p r (fuel + 1) (c :: tail) =
      if p ≠ [] ∧ p.isPrefixOf (c :: tail) then
        r ++ pyReplaceAux p r fuel ((c :: tail).drop p.length)
      else c :: pyReplaceAux p r fuel tail := rfl

theorem pyReplaceAux_of_no_match (p : Str) (c : Char) (hc : c ∈ p)
    (hcd : c.isDigit = false) :
    ∀ (s : Str) (fuel : Nat), s.length ≤ fuel → (∀ d ∈ s, d.isDigit = true) →
      pyReplaceAux p [] fuel s = s := by
  intro s
  induction s with
  | nil => intro fuel _ _; exact pyReplaceAux_nil p [] fuel
  | cons d tail ih =>
    intro fuel hfuel hdig
    cases fuel with
    | zero => simp at hfuel
    | succ f =>
      rw [pyReplaceAux_cons]
      have hnp : ¬ (p ≠ [] ∧ p.isPrefixOf (d :: tail)) := by
        rintro ⟨-, hpre⟩
        have hsub := (List.isPrefixOf_iff_prefix.mp hpre).subset hc
        have := hdig c hsub
        rw [hcd] at this
        exact Bool.false_ne_true this
      rw [if_neg hnp, ih f (by simpa using hfuel)
        (fun x hx => hdig x (List.mem_cons_of_mem d hx))]

/-- Removing every occurrence of the separation string from the marker line
(Python line.replace(separation, "")) leaves exactly the decimal digits when
the separation string contains a character that is not a decimal digit. -/
theorem pyReplace_strip_marker (p ds : Str) (c : Char) (hc : c ∈ p)
    (hcd : c.isDigit = false) (hds : ∀ d ∈ ds, d.isDigit = true) :
    pyReplace p [] (p ++ ds) = ds := by
  cases p with
  | nil => cases hc
  | cons a p2 =>
    have hpre : (a :: p2).isPrefixOf ((a :: p2) ++ ds) = true :=
      List.isPrefixOf_iff_prefix.mpr (List.prefix_append (a :: p2) ds)
    have hlen : ((a :: p2) ++ ds).length = (p2.length + ds.length) + 1 := by
      simp [List.length_append]
    rw [pyReplace, hlen]
    have hcons : (a :: p2) ++ ds = a :: (p2 ++ ds) := rfl
    rw [hcons, pyReplaceAux_cons, if_pos ⟨by simp, by rw [← hcons]; exact hpre⟩]
    have hdrop : (a :: (p2 ++ ds)).drop (a :: p2).length = ds := by
      rw [← hcons]; exact List.drop_left (a :: p2) ds
    rw [hdrop, List.nil_append]
    exact pyReplaceAux_of_no_match (a :: p2) c hc hcd ds (p2.length + ds.length)
      (by omega) hds

theorem pyReplaceAux_single_filter (a : Char) (s : Str) :
    ∀ (fuel : Nat), s.length ≤ fuel →
      pyReplaceAux [a] [] fuel s = s.filter (fun c => c != a) := by
  induction s with
  | nil => intro fuel _; simp [pyReplaceAux_nil]
  | cons c tail ih =>
    intro fuel hfuel
    cases fuel with
    | zero => simp at hfuel
    | succ f =>
      rw [pyReplaceAux_cons]
      by_cases hca : a = c
      · subst hca
        rw [if_pos ⟨by simp, by simp [List.isPrefixOf]⟩]
        simp only [List.length_cons, List.drop_succ_cons, List.drop_zero,
          List.nil_append, List.filter_cons]
        simp only [bne_self_eq_false, Bool.false_eq_true, if_neg]
        exact ih f (by simpa using hfuel)
      · have : ¬ (([a] : Str) ≠ [] ∧ ([a] : Str).isPrefixOf (c :: tail)) := by
          rintro ⟨-, hpre⟩
          simp [List.isPrefixOf] at hpre
          exact hca hpre
        rw [if_neg this, ih f (by simpa using hfuel)]
        simp [List.filter_cons, bne, Ne.symm hca]

/-- Python s.replace(a, "") for a single character pattern removes exactly the
occurrences of that character. -/
theorem pyReplace_single_filter (a : Char) (s : Str) :
    pyReplace [a] [] s = s.filter (fun c => c != a) :=
  pyReplaceAux_single_filter a s s.length (Nat.le_refl _)

theorem pyReplaceAux_single_map (a b : Char) (s : Str) :
    ∀ (fuel : Nat), s.length ≤ fuel →
      pyReplaceAux [a] [b] fuel s = s.map (fun c => if c = a then b else c) := by
  induction s with
  | nil => intro fuel _; simp [pyReplaceAux_nil]
  | cons c tail ih =>
    intro fuel hfuel
    cases fuel with
    | zero => simp at hfuel
    | succ f =>
      rw [pyReplaceAux_cons]
      by_cases hca : a = c
      · subst hca
        have hdrop : (a :: tail).drop ([a] : Str).length = tail := rfl
        rw [if_pos ⟨by simp, by simp [List.isPrefixOf]⟩, hdrop,
          ih f (by simpa using hfuel)]
        simp
      · have : ¬ (([a] : Str) ≠ [] ∧ ([a] : Str).isPrefixOf (c :: tail)) := by
          rintro ⟨-, hpre⟩
          simp [List.isPrefixOf] at hpre
          exact hca hpre
        rw [if_neg this, ih f (by simpa using hfuel)]
        simp [List.map_cons, if_neg (Ne.symm hca)]

/-- Python s.replace(a, b) for single characters is the elementwise substitution. -/
theorem pyReplace_single_map (a b : Char) (s : Str) :
    pyReplace [a] [b] s = s.map (fun c => if c = a then b else c) :=
  pyReplaceAux_single_map a b s s.length (Nat.le_refl _)

theorem digitsToNat_append_one (s : Str) (c : Char) :
    digitsToNat (s ++ [c]) = digitsToNat s * 10 + (c.toNat - 48) := by
  simp [digitsToNat, List.foldl_append]

theorem digitChar_toNat (d : Nat) (h : d < 10) : (digitChar d).toNat = 48 + d := by
  interval_cases d <;> rfl

theorem digitChar_isDigit (d : Nat) (h : d < 10) : (digitChar d).isDigit = true := by
  interval_cases d <;> rfl

theorem natToDigitsAux_spec (n : Nat) : ∀ (fuel : Nat), n < fuel →
    natToDigitsAux fuel n ≠ [] ∧ (∀ c ∈ natToDigitsAux fuel n, c.isDigit = true) ∧
      digitsToNat (natToDigitsAux fuel n) = n := by
  induction n using Nat.strong_induction_on with
  | _ n ih =>
    intro fuel hfuel
    cases fuel with
    | zero => omega
    | succ f =>
      by_cases hn : n < 10
      · refine ⟨by simp [natToDigitsAux, hn], ?_, ?_⟩
        · intro c hc
          simp [natToDigitsAux, hn] at hc
          subst hc
          exact digitChar_isDigit n hn
        · simp [natToDigitsAux, hn, digitsToNat, digitChar_toNat n hn]
      · have hdiv : n / 10 < n := Nat.div_lt_self (by omega) (by omega)
        have hdivf : n / 10 < f := by omega
        obtain ⟨hne, hdig, hval⟩ := ih (n / 10) hdiv f hdivf
        have hstep : natToDigitsAux (f + 1) n =
            natToDigitsAux f (n / 10) ++ [digitChar (n % 10)] := by
          simp [natToDigitsAux, hn]
        refine ⟨by simp [hstep], ?_, ?_⟩
        · intro c hc
          rw [hstep] at hc
          rcases List.mem_append.mp hc with hc | hc
          · exact hdig c hc
          · simp at hc
            subst hc
            exact digitChar_isDigit (n % 10) (Nat.mod_lt n (by omega))
        · rw [hstep, digitsToNat_append_one, hval,
            digitChar_toNat (n % 10) (Nat.mod_lt n (by omega))]
          omega

theorem natToDigits_ne_nil (n : Nat) : natToDigits n ≠ [] :=
  (natToDigitsAux_spec n (n + 1) (Nat.lt_succ_self n)).1

theorem natToDigits_all_digit (n : Nat) : ∀ c ∈ natToDigits n, c.isDigit = true :=
  (natToDigitsAux_spec n (n + 1) (Nat.lt_succ_self n)).2.1

theorem digitsToNat_natToDigits (n : Nat) : digitsToNat (natToDigits n) = n :=
  (natToDigitsAux_spec n (n + 1) (Nat.lt_succ_self n)).2.2

/-- Python int(str(n)) recovers n. -/
theorem int_parse_natToDigits (n : Nat) : int_parse (natToDigits n) = some n := by
  rw [int_parse, if_pos ⟨natToDigits_ne_nil n, List.all_eq_true.mpr
    (fun c hc => natToDigits_all_digit n c hc)⟩, digitsToNat_natToDigits]

/-!  The appendix codec (src/form.py AppendixEncoder and its two
implementations).  The codec is an interface with encode, decode and
is_serializable; values are a type parameter, encoding may fail (EncodeError
and DecodeError are modeled as none).  vlen models Python len() on the
decoded appendix values this protocol stores (lists and dicts), which
Form.empty consults. -/

structure AppendixEncoder (V : Type) where
  encode : V → Option Str
  decode : Str → Option V
  vlen : V → Nat

/-- AppendixEncoder.is_serializable of the source: try to encode, return
whether it succeeded. -/
def AppendixEncoder.is_serializable (enc : AppendixEncoder V) (v : V) : Bool :=
  (enc.encode v).isSome

/-- A concrete instance of the codec interface used for concrete runs: the
value domain is the raw byte-string itself, encoding is the identity, and as
in JsonAppendixEncoder.decode an empty input is accepted (the source decodes
it to the empty sequence). -/
def listCodec : AppendixEncoder Str where
  encode := fun v => some v
  decode := fun b => some b
  vlen := fun v => v.length

/-- The Form data (src/form.py class Form): title, body (one string organized
by newlines), the appendix value and its encoded byte string (immutable once
constructed, Form.evaluate_appendix). -/
structure Form (V : Type) where
  title : Str
  body : Str
  appendix : V
  appendix_encoded : Str
deriving DecidableEq

/-- Form constructed from a value appendix: evaluate_appendix encodes it
(raising on encode failure); check_title rejects titles with a newline. -/
def Form.ofValue (enc : AppendixEncoder V) (title body : Str) (v : V) :
    Option (Form V) :=
  if '\n' ∈ title then none
  else (enc.encode v).map fun e => ⟨title, body, v, e⟩

/-- Form constructed from a bytes appendix (the receiving side):
evaluate_appendix decodes the bytes and keeps them as appendix_encoded. -/
def Form.ofBytes (enc : AppendixEncoder V) (title body : Str) (bs : Str) :
    Option (Form V) :=
  if '\n' ∈ title then none
  else (enc.decode bs).map fun v => ⟨title, body, v, bs⟩

/-- Form.empty: body and appendix both empty (len of the decoded appendix). -/
def Form.emptyForm (enc : AppendixEncoder V) (f : Form V) : Bool :=
  f.body.length == 0 && enc.vlen f.appendix == 0

/-- Form.valid: the title stripped of spaces (title.replace(" ", "")) is
nonempty and the form is not empty. -/
def Form.valid (enc : AppendixEncoder V) (f : Form V) : Bool :=
  if (pyReplace (strOf " ") [] f.title).length == 0 then false
  else if Form.emptyForm enc f then false
  else true

/-!  The sending half (src/form.py FormTransmitterThread). -/

/-- The default separation string of the commanding layer. -/
def defaultSeparation : Str := strOf "$separation$"

/-- FormTransmitterThread.check_separation: a separation string is accepted
iff it is single line and not empty after removing spaces. -/
def check_separation (sep : Str) : Bool :=
  !(decide ('\n' ∈ sep)) && !((pyReplace (strOf " ") [] sep).length == 0)

/-- FormTransmitterThread.assemble_separator: the separation string
immediately followed by the decimal byte length of the encoded appendix. -/
def assemble_separator (sep : Str) (appendix_encoded : Str) : Str :=
  sep ++ natToDigits appendix_encoded.length

/-- FormTransmitterThread.adjust_body_string: prepend one space to every body
line whose prefix equals the separation string, leave the others unchanged,
and store the rejoined string back into the form body. -/
def adjust_body_string (sep body : Str) : Str :=
  joinLines ((splitLines body).map fun l => if sep.isPrefixOf l then ' ' :: l else l)

/-- FormTransmitterThread.check_body_string: true iff some body line has the
separation string as prefix (which raises when adjust is off). -/
def body_collision (sep body : Str) : Bool :=
  (splitLines body).any fun l => sep.isPrefixOf l

/-- FormTransmitterThread.__init__: check_form (the form must be valid),
check_separation, then either adjust_body_string (mutating the caller's form
in place — modeled by returning the updated form, which is the object the
caller holds) or check_body_string.  none models a raised exception. -/
def transmitter_init (enc : AppendixEncoder V) (f : Form V) (sep : Str)
    (adjust : Bool) : Option (Form V) :=
  if !(Form.valid enc f) then none
  else if !(check_separation sep) then none
  else if adjust then some ⟨f.title, adjust_body_string sep f.body, f.appendix, f.appendix_encoded⟩
  else if body_collision sep f.body then none
  else some f

/-- One wire event of the sending thread: a string send (sendall_string), a
raw byte send (sendall_bytes), or a blocking wait for the three ack bytes. -/
inductive TxEvent
  | sendStr (s : Str)
  | sendBytes (b : Str)
  | waitAck
deriving DecidableEq

/-- FormTransmitterThread.send_title. -/
def send_title_events (f : Form V) : List TxEvent :=
  [TxEvent.sendStr (f.title ++ ['\n'])]

/-- FormTransmitterThread.send_body: each body line followed by a newline and
a wait for ack, then the separator line (no wait inside send_body). -/
def send_body_events (sep : Str) (f : Form V) : List TxEvent :=
  ((splitLines f.body).flatMap fun l => [TxEvent.sendStr (l ++ ['\n']), TxEvent.waitAck])
    ++ [TxEvent.sendStr (assemble_separator sep f.appendix_encoded ++ ['\n'])]

/-- FormTransmitterThread.send_appendix. -/
def send_appendix_events (f : Form V) : List TxEvent :=
  [TxEvent.sendBytes f.appendix_encoded]

/-- FormTransmitterThread.run: send_title; wait_ack; send_body; wait_ack;
send_appendix; wait_ack. -/
def transmitter_run_events (sep : Str) (f : Form V) : List TxEvent :=
  send_title_events f ++ [TxEvent.waitAck] ++ send_body_events sep f
    ++ [TxEvent.waitAck] ++ send_appendix_events f ++ [TxEvent.waitAck]

/-- The bytes a sender event pushes into the stream. -/
def tx_data : TxEvent → Str
  | TxEvent.sendStr s => s
  | TxEvent.sendBytes b => b
  | TxEvent.waitAck => []

/-- The data stream a full transmitter run writes into the connection. -/
def transmitter_stream (sep : Str) (f : Form V) : Str :=
  (transmitter_run_events sep f).flatMap tx_data

/-!  The receiving half (src/form.py FormReceiverThread over
src/connection.py SocketConnection). -/

/-- SocketConnection.receive_bytes_until_byte specialized to the newline
byte (receive_line): pop symbols until the newline, return them without the
newline together with the unread rest; none models EOFError when the stream
ends first.  cur is the reversed accumulator. -/
def recvUntilNl (cur : Str) : Str → Option (Str × Str)
  | [] => none
  | c :: rest => if c = '\n' then some (cur.reverse, rest) else recvUntilNl (c :: cur) rest

/-- FormReceiverThread.receive_line. -/
def recvLine (s : Str) : Option (Str × Str) := recvUntilNl [] s

/-- FormReceiverThread.checkup_separation: a line is the marker iff it is
strictly longer than the separation string and has it as prefix. -/
def checkup_separation (sep line : Str) : Bool :=
  decide (sep.length < line.length) && sep.isPrefixOf line

/-- FormReceiverThread.process_separation: check_separation(line) (which
re-runs checkup_separation and raises otherwise), then remove every
occurrence of the separation string (line.replace(separation, "")) and parse
the remainder with int (the str.strip result of the source is discarded
there, so no stripping happens). -/
def process_separation (sep line : Str) : Option Nat :=
  if !(checkup_separation sep line) then none
  else int_parse (pyReplace sep [] line)

/-- FormReceiverThread.receive_body inner loop: receive lines, accumulating
every line that is not the marker, stop at the marker.  Written directly on
the symbol stream (receive_line is a symbol-by-symbol read), cur being the
reversed accumulator of the current line. -/
def receive_body_aux (sep : Str) (cur : Str) : Str → Option (List Str × Str × Str)
  | [] => none
  | c :: rest =>
    if c = '\n' then
      let line := cur.reverse
      if checkup_separation sep line then some ([], line, rest)
      else
        match receive_body_aux sep [] rest with
        | none => none
        | some (ls, m, r) => some (line :: ls, m, r)
    else receive_body_aux sep (c :: cur) rest

/-- The line-receiving loop of FormReceiverThread.receive_body: the body
lines, the marker line and the unread rest of the stream. -/
def receive_body (sep : Str) (s : Str) : Option (List Str × Str × Str) :=
  receive_body_aux sep [] s

/-- FormReceiverThread.receive_body: run the loop, process the separation
line into the appendix length, join the accumulated lines into the body
string (in the source the join is only reached when process_separation did
not raise). -/
def receive_body_full (sep : Str) (s : Str) : Option (Str × Nat × Str) :=
  match receive_body sep s with
  | none => none
  | some (ls, m, rest) =>
    match process_separation sep m with
    | none => none
    | some n => some (joinLines ls, n, rest)

/-- SocketConnection.receive_length_bytes: Connection._check_length raises
ValueError unless the length is strictly positive, then exactly n symbols
are read (EOFError, modeled as none, if the stream is shorter). -/
def receive_length_bytes (n : Nat) (s : Str) : Option (Str × Str) :=
  if n = 0 then none
  else if s.length < n then none
  else some (s.take n, s.drop n)

/-- FormReceiverThread.run data path: receive_title, receive_body (with the
marker processing), receive_appendix.  Returns title, body string and the
encoded appendix bytes. -/
def receiver_receive (sep : Str) (stream : Str) : Option (Str × Str × Str) :=
  match recvLine stream with
  | none => none
  | some (t, s1) =>
    match receive_body_full sep s1 with
    | none => none
    | some (b, n, s2) =>
      match receive_length_bytes n s2 with
      | none => none
      | some (ab, _) => some (t, b, ab)

/-- FormReceiverThread.assemble_form after a full run: build a Form from
title, joined body and the received appendix bytes (decoding them as the
Form constructor does). -/
def receive_form (enc : AppendixEncoder V) (sep : Str) (stream : Str) :
    Option (Form V) :=
  match receiver_receive sep stream with
  | none => none
  | some (t, b, ab) => Form.ofBytes enc t b ab

/-- One receiver event: a received line, a received byte block, or a sent
three-byte ack. -/
inductive RxEvent
  | gotLine (l : Str)
  | gotBytes (b : Str)
  | sendAck
deriving DecidableEq

/-- FormReceiverThread.run with its ack cadence: receive_title then
send_ack; inside receive_body an ack after every accumulated body line and
none for the marker line; send_ack after receive_body returns; then
receive_appendix and send_ack. -/
def receiver_run_events (sep : Str) (stream : Str) : Option (List RxEvent) :=
  match recvLine stream with
  | none => none
  | some (t, s1) =>
    match receive_body sep s1 with
    | none => none
    | some (ls, m, s2) =>
      match process_separation sep m with
      | none => none
      | some n =>
        match receive_length_bytes n s2 with
        | none => none
        | some (ab, _) =>
          some ([RxEvent.gotLine t, RxEvent.sendAck]
            ++ (ls.flatMap fun l => [RxEvent.gotLine l, RxEvent.sendAck])
            ++ [RxEvent.gotLine m, RxEvent.sendAck]
            ++ [RxEvent.gotBytes ab, RxEvent.sendAck])

theorem recvUntilNl_append (l rest : Str) (h : '\n' ∉ l) :
    ∀ cur : Str, recvUntilNl cur (l ++ '\n' :: rest) = some (cur.reverse ++ l, rest) := by
  induction l with
  | nil => intro cur; simp [recvUntilNl]
  | cons c cs ih =>
    intro cur
    have hc : c ≠ '\n' := fun hc => h (by simp [hc])
    have hcs : '\n' ∉ cs := fun hm => h (List.mem_cons_of_mem c hm)
    have step : recvUntilNl cur ((c :: cs) ++ '\n' :: rest)
        = recvUntilNl (c :: cur) (cs ++ '\n' :: rest) := by
      simp [recvUntilNl, hc]
    rw [step, ih hcs (c :: cur)]
    simp

theorem recvLine_append (l rest : Str) (h : '\n' ∉ l) :
    recvLine (l ++ '\n' :: rest) = some (l, rest) := by
  rw [recvLine, recvUntilNl_append l rest h []]
  simp

theorem receive_body_aux_step (sep l rest : Str) (h : '\n' ∉ l) :
    ∀ cur : Str, receive_body_aux sep cur (l ++ '\n' :: rest) =
      if checkup_separation sep (cur.reverse ++ l) then some ([], cur.reverse ++ l, rest)
      else
        match receive_body_aux sep [] rest with
        | none => none
        | some (ls, m, r) => some ((cur.reverse ++ l) :: ls, m, r) := by
  induction l with
  | nil =>
    intro cur
    simp only [List.nil_append, List.append_nil]
    rfl
  | cons c cs ih =>
    intro cur
    have hc : c ≠ '\n' := fun hc => h (by simp [hc])
    have hcs : '\n' ∉ cs := fun hm => h (List.mem_cons_of_mem c hm)
    have step : receive_body_aux sep cur ((c :: cs) ++ '\n' :: rest)
        = receive_body_aux sep (c :: cur) (cs ++ '\n' :: rest) := by
      simp [receive_body_aux, hc]
    rw [step, ih hcs (c :: cur)]
    simp

/-- The byte block a list of lines occupies on the wire: each line followed
by a newline. -/
def lineBlocks (ls : List Str) : Str := ls.flatMap fun l => l ++ ['\n']

theorem receive_body_blocks (sep : Str) (ls : List Str) (m rest : Str)
    (hls : ∀ l ∈ ls, '\n' ∉ l ∧ checkup_separation sep l = false)
    (hm : '\n' ∉ m) (hmark : checkup_separation sep m = true) :
    receive_body sep (lineBlocks ls ++ (m ++ ['\n']) ++ rest) = some (ls, m, rest) := by
  induction ls with
  | nil =>
    have hshape : lineBlocks [] ++ (m ++ ['\n']) ++ rest = m ++ '\n' :: rest := by
      simp [lineBlocks]
    rw [hshape, receive_body, receive_body_aux_step sep m rest hm []]
    simp [hmark]
  | cons l ls ih =>
    have hshape : lineBlocks (l :: ls) ++ (m ++ ['\n']) ++ rest
        = l ++ '\n' :: (lineBlocks ls ++ (m ++ ['\n']) ++ rest) := by
      simp [lineBlocks]
    rw [hshape, receive_body,
      receive_body_aux_step sep l _ (hls l (List.mem_cons_self l ls)).1 []]
    simp only [List.reverse_nil, List.nil_append,
      (hls l (List.mem_cons_self l ls)).2, Bool.false_eq_true, if_false]
    have := ih (fun x hx => hls x (List.mem_cons_of_mem l hx))
    rw [receive_body] at this
    rw [this]

theorem checkup_separation_marker (sep bs : Str) :
    checkup_separation sep (assemble_separator sep bs) = true := by
  rw [checkup_separation, assemble_separator]
  have hpos : 0 < (natToDigits bs.length).length :=
    List.length_pos.mpr (natToDigits_ne_nil bs.length)
  have h1 : sep.length < (sep ++ natToDigits bs.length).length := by
    rw [List.length_append]; omega
  have h2 : sep.isPrefixOf (sep ++ natToDigits bs.length) = true :=
    List.isPrefixOf_iff_prefix.mpr (List.prefix_append sep _)
  simp [h1, h2, hpos]

theorem process_separation_marker (sep bs : Str) (c : Char) (hc : c ∈ sep)
    (hcd : c.isDigit = false) :
    process_separation sep (assemble_separator sep bs) = some bs.length := by
  rw [process_separation, checkup_separation_marker sep bs]
  simp only [Bool.not_true, Bool.false_eq_true, if_false]
  rw [assemble_separator,
    pyReplace_strip_marker sep (natToDigits bs.length) c hc hcd
      (fun d hd => natToDigits_all_digit bs.length d hd),
    int_parse_natToDigits]

theorem marker_no_newline (sep bs : Str) (hsep : '\n' ∉ sep) :
    '\n' ∉ assemble_separator sep bs := by
  rw [assemble_separator]
  intro hmem
  rcases List.mem_append.mp hmem with hmem | hmem
  · exact hsep hmem
  · have := natToDigits_all_digit bs.length '\n' hmem
    simp [Char.isDigit] at this

theorem tx_data_body_lines (ls : List Str) :
    (ls.flatMap fun l => [TxEvent.sendStr (l ++ ['\n']), TxEvent.waitAck]).flatMap tx_data
      = lineBlocks ls := by
  induction ls with
  | nil => rfl
  | cons l ls ih =>
    simp only [List.flatMap_cons, List.flatMap_append, lineBlocks, tx_data] at *
    simp [ih, tx_data]

theorem transmitter_stream_shape (sep : Str) (f : Form V) :
    transmitter_stream sep f =
      f.title ++ '\n' :: (lineBlocks (splitLines f.body)
        ++ (assemble_separator sep f.appendix_encoded ++ ['\n'])
        ++ f.appendix_encoded) := by
  rw [transmitter_stream, transmitter_run_events, send_title_events,
    send_body_events, send_appendix_events]
  simp only [List.flatMap_append, tx_data_body_lines]
  simp [List.flatMap_cons, tx_data]

theorem receive_length_bytes_exact (bs : Str) (hne : bs ≠ []) :
    receive_length_bytes bs.length bs = some (bs, []) := by
  rw [receive_length_bytes]
  have hpos : bs.length ≠ 0 := by
    intro h
    exact hne (List.length_eq_zero.mp h)
  rw [if_neg hpos, if_neg (by omega)]
  simp

/-- Core reception correctness: on the stream written by a transmitter run,
the receiver reads back the title, exactly the sender's body lines (none of
them mistaken for the marker), parses the marker into the appendix length
and reads the appendix bytes.  Hypotheses: the title is single line (Form
check_title), the separation contains a character that is not a decimal
digit (otherwise the int parse of the stripped marker can fail), no body
line carries the separation as prefix, and the encoded appendix is nonempty
(receive_length_bytes rejects the length zero). -/
theorem receiver_core (sep : Str) (f : Form V) (c : Char)
    (hc : c ∈ sep) (hcd : c.isDigit = false) (hsep : '\n' ∉ sep)
    (htitle : '\n' ∉ f.title)
    (hcol : ∀ l ∈ splitLines f.body, sep.isPrefixOf l = false)
    (hne : f.appendix_encoded ≠ []) :
    recvLine (transmitter_stream sep f)
      = some (f.title, lineBlocks (splitLines f.body)
          ++ (assemble_separator sep f.appendix_encoded ++ ['\n'])
          ++ f.appendix_encoded) ∧
    receive_body sep (lineBlocks (splitLines f.body)
          ++ (assemble_separator sep f.appendix_encoded ++ ['\n'])
          ++ f.appendix_encoded)
      = some (splitLines f.body, assemble_separator sep f.appendix_encoded,
          f.appendix_encoded) ∧
    process_separation sep (assemble_separator sep f.appendix_encoded)
      = some f.appendix_encoded.length ∧
    receive_length_bytes f.appendix_encoded.length f.appendix_encoded
      = some (f.appendix_encoded, []) := by
  refine ⟨?_, ?_, ?_, ?_⟩
  · rw [transmitter_stream_shape]
    exact recvLine_append f.title _ htitle
  · exact receive_body_blocks sep (splitLines f.body) _ f.appendix_encoded
      (fun l hl => ⟨splitLines_no_newline f.body l hl, by
        rw [checkup_separation, hcol l hl]; simp⟩)
      (marker_no_newline sep f.appendix_encoded hsep)
      (checkup_separation_marker sep f.appendix_encoded)
  · exact process_separation_marker sep f.appendix_encoded c hc hcd
  · exact receive_length_bytes_exact f.appendix_encoded hne

theorem receive_body_full_eq (sep s1 : Str) (ls : List Str) (m rest : Str) (n : Nat)
    (h1 : receive_body sep s1 = some (ls, m, rest))
    (h2 : process_separation sep m = some n) :
    receive_body_full sep s1 = some (joinLines ls, n, rest) := by
  simp only [receive_body_full, h1, h2]

theorem receiver_receive_eq (sep stream t s1 b s2 ab rest : Str) (n : Nat)
    (h1 : recvLine stream = some (t, s1))
    (h2 : receive_body_full sep s1 = some (b, n, s2))
    (h3 : receive_length_bytes n s2 = some (ab, rest)) :
    receiver_receive sep stream = some (t, b, ab) := by
  simp only [receiver_receive, h1, h2, h3]

theorem adjust_body_string_id (sep body : Str)
    (hcol : ∀ l ∈ splitLines body, sep.isPrefixOf l = false) :
    adjust_body_string sep body = body := by
  rw [adjust_body_string]
  have hmap : (splitLines body).map (fun l => if sep.isPrefixOf l then ' ' :: l else l)
      = splitLines body := by
    conv_rhs => rw [← List.map_id (splitLines body)]
    refine List.map_congr_left ?_
    intro l hl
    simp [hcol l hl]
  rw [hmap, joinLines_splitLines]

/-- The default separation contains the non-digit dollar character and no
newline. -/
theorem defaultSeparation_facts :
    '$' ∈ defaultSeparation ∧ ('$').isDigit = false ∧ '\n' ∉ defaultSeparation := by
  decide

/-- C2 (amended: the encoded appendix must additionally be nonempty, because
SocketConnection.receive_length_bytes rejects a read of length zero): for
every valid form whose body contains no line starting with the separation
string and whose encoded appendix is nonempty, the transmitter (adjust on)
leaves the form unchanged and the receiver on the transmitted stream yields
a form equal to the original byte-for-byte over the title and body string
and structurally over the appendix. -/
theorem c2_send_receive_roundtrip (V : Type) (enc : AppendixEncoder V) (f : Form V)
    (htitle : '\n' ∉ f.title)
    (hval : Form.valid enc f = true)
    (hdec : enc.decode f.appendix_encoded = some f.appendix)
    (hcol : ∀ l ∈ splitLines f.body, defaultSeparation.isPrefixOf l = false)
    (hne : f.appendix_encoded ≠ []) :
    transmitter_init enc f defaultSeparation true = some f ∧
    receive_form enc defaultSeparation (transmitter_stream defaultSeparation f)
      = some f := by
  obtain ⟨hdol, hdold, hdoln⟩ := defaultSeparation_facts
  constructor
  · rw [transmitter_init, hval]
    have hcs : check_separation defaultSeparation = true := by decide
    rw [hcs]
    simp only [Bool.not_true, Bool.false_eq_true, if_false, if_true]
    rw [adjust_body_string_id defaultSeparation f.body hcol]
  · obtain ⟨h1, h2, h3, h4⟩ := receiver_core defaultSeparation f '$' hdol hdold
      hdoln htitle hcol hne
    have hfull := receive_body_full_eq defaultSeparation _ (splitLines f.body) _ _ _ h2 h3
    rw [joinLines_splitLines] at hfull
    have hrr := receiver_receive_eq defaultSeparation _ f.title _ f.body
      f.appendix_encoded f.appendix_encoded [] f.appendix_encoded.length h1 hfull h4
    simp [receive_form, hrr, Form.ofBytes, htitle, hdec]

/-- A sample form with nonempty body and a two-byte appendix, used by the
concrete witnesses. -/
def sampleForm : Form Str := ⟨strOf "T", strOf "ab", strOf "xy", strOf "xy"⟩

/-- Witness for the amended C2 theorem at a concrete form. -/
theorem c2_send_receive_roundtrip_witness :
    ('\n' ∉ sampleForm.title) ∧ Form.valid listCodec sampleForm = true ∧
    listCodec.decode sampleForm.appendix_encoded = some sampleForm.appendix ∧
    (∀ l ∈ splitLines sampleForm.body, defaultSeparation.isPrefixOf l = false) ∧
    sampleForm.appendix_encoded ≠ [] ∧
    (transmitter_init listCodec sampleForm defaultSeparation true = some sampleForm ∧
      receive_form listCodec defaultSeparation
        (transmitter_stream defaultSeparation sampleForm) = some sampleForm) :=
  ⟨by decide, by decide, by decide, by decide, by decide,
    c2_send_receive_roundtrip Str listCodec sampleForm (by decide) (by decide)
      (by decide) (by decide) (by decide)⟩

/-- The zero-appendix form of the C2 counterexample: a valid form built from
an empty encoded appendix (JsonAppendixEncoder.decode accepts the empty
input), whose body has no separation collision. -/
def zeroAppendixForm : Form Str := ⟨strOf "T", strOf "body", [], []⟩

/-- Counterexample to C2 as stated: this valid collision-free form is lost in
transit — the receiver raises in receive_length_bytes(0) and never produces
a form, so no form equal to the original is received. -/
theorem c2_counterexample :
    Form.ofBytes listCodec (strOf "T") (strOf "body") [] = some zeroAppendixForm ∧
    Form.valid listCodec zeroAppendixForm = true ∧
    (∀ l ∈ splitLines zeroAppendixForm.body, defaultSeparation.isPrefixOf l = false) ∧
    transmitter_init listCodec zeroAppendixForm defaultSeparation true
      = some zeroAppendixForm ∧
    receive_form listCodec defaultSeparation
      (transmitter_stream defaultSeparation zeroAppendixForm) = none := by
  decide

theorem count_waitAck_body_lines (ls : List Str) :
    (ls.flatMap fun l => [TxEvent.sendStr (l ++ ['\n']), TxEvent.waitAck]).count
        TxEvent.waitAck = ls.length := by
  induction ls with
  | nil => rfl
  | cons l ls ih =>
    simp only [List.flatMap_cons, List.count_append, ih, List.length_cons]
    simp [List.count_cons]
    omega

/-- C1 (amended: an ack IS exchanged after the marker line — the sender run
waits for an ack right after send_body, whose last write is the marker, and
the receiver run sends an ack right after receive_body returns): during
transmission of one form the sender waits for an ack after the title, after
each body line, once after the marker line and once after the appendix
bytes — body lines + 3 acks in total — and the receiver on the transmitted
stream sends acks at exactly those points. -/
theorem c1_ack_cadence (V : Type) (f : Form V)
    (htitle : '\n' ∉ f.title)
    (hcol : ∀ l ∈ splitLines f.body, defaultSeparation.isPrefixOf l = false)
    (hne : f.appendix_encoded ≠ []) :
    transmitter_run_events defaultSeparation f =
      [TxEvent.sendStr (f.title ++ ['\n']), TxEvent.waitAck]
        ++ ((splitLines f.body).flatMap fun l =>
              [TxEvent.sendStr (l ++ ['\n']), TxEvent.waitAck])
        ++ [TxEvent.sendStr (assemble_separator defaultSeparation f.appendix_encoded
              ++ ['\n']), TxEvent.waitAck,
            TxEvent.sendBytes f.appendix_encoded, TxEvent.waitAck] ∧
    (transmitter_run_events defaultSeparation f).count TxEvent.waitAck
      = (splitLines f.body).length + 3 ∧
    receiver_run_events defaultSeparation (transmitter_stream defaultSeparation f) =
      some ([RxEvent.gotLine f.title, RxEvent.sendAck]
        ++ ((splitLines f.body).flatMap fun l => [RxEvent.gotLine l, RxEvent.sendAck])
        ++ [RxEvent.gotLine (assemble_separator defaultSeparation f.appendix_encoded),
            RxEvent.sendAck]
        ++ [RxEvent.gotBytes f.appendix_encoded, RxEvent.sendAck]) := by
  obtain ⟨hdol, hdold, hdoln⟩ := defaultSeparation_facts
  obtain ⟨h1, h2, h3, h4⟩ := receiver_core defaultSeparation f '$' hdol hdold
    hdoln htitle hcol hne
  refine ⟨?_, ?_, ?_⟩
  · rw [transmitter_run_events, send_title_events, send_body_events,
      send_appendix_events]
    simp
  · rw [transmitter_run_events, send_title_events, send_body_events,
      send_appendix_events]
    simp only [List.count_append, count_waitAck_body_lines]
    simp [List.count_cons]
    omega
  · simp only [receiver_run_events, h1, h2, h3, h4]

/-- Witness for the amended C1 theorem at a concrete form. -/
theorem c1_ack_cadence_witness :
    ('\n' ∉ sampleForm.title) ∧
    (∀ l ∈ splitLines sampleForm.body, defaultSeparation.isPrefixOf l = false) ∧
    sampleForm.appendix_encoded ≠ [] ∧
    ((transmitter_run_events defaultSeparation sampleForm).count TxEvent.waitAck
      = (splitLines sampleForm.body).length + 3) :=
  ⟨by decide, by decide, by decide,
    (c1_ack_cadence Str sampleForm (by decide) (by decide) (by decide)).2.1⟩

/-- Counterexample to C1 as stated: for this concrete form the sender's run
trace has the marker send at index 4, immediately followed at index 5 by a
wait for an ack, before the appendix send at index 6 — an ack is exchanged
after the marker line. -/
theorem c1_counterexample :
    (transmitter_run_events defaultSeparation sampleForm)[4]?
      = some (TxEvent.sendStr
          (assemble_separator defaultSeparation sampleForm.appendix_encoded ++ ['\n'])) ∧
    (transmitter_run_events defaultSeparation sampleForm)[5]? = some TxEvent.waitAck ∧
    (transmitter_run_events defaultSeparation sampleForm)[6]?
      = some (TxEvent.sendBytes sampleForm.appendix_encoded) := by
  decide

theorem prefix_shift_all_eq (c : Char) :
    ∀ (p l : Str), p <+: (c :: l) → p <+: l → ∀ a ∈ p, a = c := by
  intro p
  induction p with
  | nil => intro l _ _ a ha; cases ha
  | cons a q ih =>
    intro l h1 h2 x hx
    obtain ⟨hac, hql⟩ := List.cons_prefix_cons.mp h1
    obtain ⟨r, hr⟩ := h2
    have hl : l = c :: (q ++ r) := by rw [← hr, ← hac]; rfl
    have hq1 : q <+: (c :: (q ++ r)) := hl ▸ hql
    have hq2 : q <+: (q ++ r) := List.prefix_append q r
    rcases List.mem_cons.mp hx with rfl | hx
    · exact hac
    · exact ih (q ++ r) hq1 hq2 x hx

/-- Prefixing one space protects an offending line: if the separation string
contains a character other than the space, a line starting with the
separation string no longer starts with it after the space is prepended. -/
theorem adjusted_line_not_sep_prefix (sep l : Str) (d : Char) (hd : d ∈ sep)
    (hds : d ≠ ' ') (hpre : sep.isPrefixOf l = true) :
    sep.isPrefixOf (' ' :: l) = false := by
  by_contra h
  have h2 : sep.isPrefixOf (' ' :: l) = true := by
    cases hb : sep.isPrefixOf (' ' :: l) with
    | false => exact absurd hb h
    | true => rfl
  have hall := prefix_shift_all_eq ' ' sep l
    (List.isPrefixOf_iff_prefix.mp h2) (List.isPrefixOf_iff_prefix.mp hpre)
  exact hds (hall d hd)

/-- C7 (amended: the separation string must additionally contain a character
that is not a decimal digit — otherwise line.replace(separation, "") can
strip digits of the length suffix too and the int parse of the marker
fails): for every form and every separation accepted by check_separation,
running the sender with adjust on changes the body only by prefixing one
space to each line whose prefix equals the separation string, and the
receiver body phase on the transmitted stream reconstructs exactly that
adjusted body, no line of it being taken for the marker. -/
theorem c7_adjust_body_received (V : Type) (enc : AppendixEncoder V) (f : Form V)
    (sep : Str) (hval : Form.valid enc f = true)
    (hsep : check_separation sep = true)
    (c : Char) (hc : c ∈ sep) (hcd : c.isDigit = false)
    (htitle : '\n' ∉ f.title) :
    ∃ f' rest,
      transmitter_init enc f sep true = some f' ∧
      f'.title = f.title ∧ f'.appendix_encoded = f.appendix_encoded ∧
      splitLines f'.body = (splitLines f.body).map
        (fun l => if sep.isPrefixOf l then ' ' :: l else l) ∧
      (∀ l ∈ splitLines f'.body, checkup_separation sep l = false) ∧
      recvLine (transmitter_stream sep f') = some (f.title, rest) ∧
      receive_body_full sep rest
        = some (f'.body, f.appendix_encoded.length, f.appendix_encoded) := by
  have hsep2 := hsep
  rw [check_separation] at hsep2
  simp only [Bool.and_eq_true, Bool.not_eq_true', decide_eq_false_iff_not,
    beq_eq_false_iff_ne] at hsep2
  obtain ⟨hnl, hsp0⟩ := hsep2
  have hsp : ∃ d ∈ sep, d ≠ ' ' := by
    have hfil : pyReplace (strOf " ") [] sep = sep.filter (fun x => x != ' ') := by
      have hsp1 : strOf " " = [' '] := rfl
      rw [hsp1, pyReplace_single_filter]
    rw [hfil] at hsp0
    have hne : sep.filter (fun x => x != ' ') ≠ [] := by
      intro h
      rw [h] at hsp0
      simp at hsp0
    obtain ⟨d, hd⟩ := List.exists_mem_of_ne_nil _ hne
    obtain ⟨hdm, hdp⟩ := List.mem_filter.mp hd
    exact ⟨d, hdm, by simpa using hdp⟩
  obtain ⟨d, hdm, hds⟩ := hsp
  set f' : Form V := ⟨f.title, adjust_body_string sep f.body, f.appendix,
    f.appendix_encoded⟩ with hf'
  have hinit : transmitter_init enc f sep true = some f' := by
    rw [transmitter_init, hval, hsep]
    rfl
  have hlines : splitLines f'.body = (splitLines f.body).map
      (fun l => if sep.isPrefixOf l then ' ' :: l else l) := by
    show splitLines (adjust_body_string sep f.body) = _
    rw [adjust_body_string]
    refine splitLines_joinLines _ ?_ ?_
    · intro h
      exact splitLines_ne_nil f.body (List.map_eq_nil_iff.mp h)
    · intro l hl
      obtain ⟨l0, hl0, rfl⟩ := List.mem_map.mp hl
      have hnn := splitLines_no_newline f.body l0 hl0
      by_cases hp : sep.isPrefixOf l0
      · simp only [hp, if_true]
        intro hmem
        rcases List.mem_cons.mp hmem with hsp | hmem
        · exact absurd hsp.symm (by decide)
        · exact hnn hmem
      · simp only [hp, if_false]
        exact hnn
  have hnopre : ∀ l ∈ splitLines f'.body, sep.isPrefixOf l = false := by
    intro l hl
    rw [hlines] at hl
    obtain ⟨l0, hl0, rfl⟩ := List.mem_map.mp hl
    by_cases hp : sep.isPrefixOf l0
    · simp only [hp, if_true]
      exact adjusted_line_not_sep_prefix sep l0 d hdm hds hp
    · simp only [hp, if_false]
      exact Bool.eq_false_iff.mpr hp
  have hnomark : ∀ l ∈ splitLines f'.body, checkup_separation sep l = false := by
    intro l hl
    rw [checkup_separation, hnopre l hl]
    simp
  refine ⟨f', lineBlocks (splitLines f'.body)
    ++ (assemble_separator sep f'.appendix_encoded ++ ['\n'])
    ++ f'.appendix_encoded, hinit, rfl, rfl, hlines, hnomark, ?_, ?_⟩
  · rw [transmitter_stream_shape]
    exact recvLine_append f.title _ htitle
  · have hbody := receive_body_blocks sep (splitLines f'.body)
      (assemble_separator sep f'.appendix_encoded) f'.appendix_encoded
      (fun l hl => ⟨by
        have := hlines ▸ hl
        rw [hlines] at hl
        obtain ⟨l0, hl0, rfl⟩ := List.mem_map.mp hl
        have hnn := splitLines_no_newline f.body l0 hl0
        by_cases hp : sep.isPrefixOf l0
        · simp only [hp, if_true]
          intro hmem
          rcases List.mem_cons.mp hmem with hsp | hmem
          · exact absurd hsp.symm (by decide)
          · exact hnn hmem
        · simp only [hp, if_false]
          exact hnn, hnomark l hl⟩)
      (marker_no_newline sep f'.appendix_encoded hnl)
      (checkup_separation_marker sep f'.appendix_encoded)
    have hproc := process_separation_marker sep f'.appendix_encoded c hc hcd
    have hfull := receive_body_full_eq sep _ (splitLines f'.body) _ _ _ hbody hproc
    rw [joinLines_splitLines] at hfull
    exact hfull

/-- A form whose first body line collides with the default separation. -/
def collidingForm : Form Str :=
  ⟨strOf "T", strOf "$separation$123\nnormal", strOf "xy", strOf "xy"⟩

/-- Witness for the amended C7 theorem at a concrete form and the default
separation. -/
theorem c7_adjust_body_received_witness :
    Form.valid listCodec collidingForm = true ∧
    check_separation defaultSeparation = true ∧
    '$' ∈ defaultSeparation ∧ ('$').isDigit = false ∧
    ('\n' ∉ collidingForm.title) ∧
    (∃ f' rest,
      transmitter_init listCodec collidingForm defaultSeparation true = some f' ∧
      f'.title = collidingForm.title ∧
      f'.appendix_encoded = collidingForm.appendix_encoded ∧
      splitLines f'.body = (splitLines collidingForm.body).map
        (fun l => if defaultSeparation.isPrefixOf l then ' ' :: l else l) ∧
      (∀ l ∈ splitLines f'.body, checkup_separation defaultSeparation l = false) ∧
      recvLine (transmitter_stream defaultSeparation f')
        = some (collidingForm.title, rest) ∧
      receive_body_full defaultSeparation rest
        = some (f'.body, collidingForm.appendix_encoded.length,
            collidingForm.appendix_encoded)) :=
  ⟨by decide, by decide, by decide, by decide, by decide,
    c7_adjust_body_received Str listCodec collidingForm defaultSeparation (by decide)
      (by decide) '$' (by decide) (by decide) (by decide)⟩

/-- The all-digit separation string "1" (accepted by check_separation). -/
def allDigitSeparation : Str := strOf "1"

/-- A form with an eleven-byte encoded appendix and a collision-free body. -/
def elevenByteForm : Form Str :=
  ⟨strOf "T", strOf "normal", strOf "0123456789A", strOf "0123456789A"⟩

/-- Counterexample to C7 as stated: with the accepted separation "1" and an
eleven-byte appendix the marker line is "111"; line.replace("1", "") leaves
the empty string, int("") raises, and the receiver aborts before
reconstructing any body at all, although no body line was taken for the
marker. -/
theorem c7_counterexample :
    check_separation allDigitSeparation = true ∧
    Form.valid listCodec elevenByteForm = true ∧
    transmitter_init listCodec elevenByteForm allDigitSeparation true
      = some elevenByteForm ∧
    assemble_separator allDigitSeparation elevenByteForm.appendix_encoded
      = strOf "111" ∧
    process_separation allDigitSeparation (strOf "111") = none ∧
    receiver_receive allDigitSeparation
      (transmitter_stream allDigitSeparation elevenByteForm) = none ∧
    receive_form listCodec allDigitSeparation
      (transmitter_stream allDigitSeparation elevenByteForm) = none := by
  decide

/-- The life of one FormTransmitterThread as the caller sees it: the
constructor validates and (with adjust on) rewrites the form body in place;
run() then only reads the form, so the form object the caller holds when the
thread finishes is exactly the one the constructor produced. -/
def transmitter_lifecycle (enc : AppendixEncoder V) (f : Form V) (sep : Str)
    (adjust : Bool) : Option (Form V × List TxEvent) :=
  match transmitter_init enc f sep adjust with
  | none => none
  | some f2 => some (f2, transmitter_run_events sep f2)

/-- C10: constructing a form transmitter with adjust on mutates the caller's
form at construction time — for every form containing a body line whose
prefix equals the separation string, the form coming out of the constructor
already holds the space-prefixed body (a body different from the original),
and the whole transmission leaves that adjusted form unchanged. -/
theorem c10_adjust_mutates_form (V : Type) (enc : AppendixEncoder V) (f : Form V)
    (sep : Str) (hval : Form.valid enc f = true)
    (hsep : check_separation sep = true)
    (hcol : ∃ l ∈ splitLines f.body, sep.isPrefixOf l = true) :
    ∃ f', transmitter_init enc f sep true = some f' ∧
      f'.body = adjust_body_string sep f.body ∧
      f'.body ≠ f.body ∧
      transmitter_lifecycle enc f sep true
        = some (f', transmitter_run_events sep f') := by
  set f' : Form V := ⟨f.title, adjust_body_string sep f.body, f.appendix,
    f.appendix_encoded⟩ with hf'
  have hinit : transmitter_init enc f sep true = some f' := by
    rw [transmitter_init, hval, hsep]
    rfl
  refine ⟨f', hinit, rfl, ?_, by simp only [transmitter_lifecycle, hinit]⟩
  obtain ⟨l0, hl0, hpre⟩ := hcol
  intro heq
  have hmap : splitLines (adjust_body_string sep f.body)
      = (splitLines f.body).map (fun l => if sep.isPrefixOf l then ' ' :: l else l) := by
    rw [adjust_body_string]
    refine splitLines_joinLines _ ?_ ?_
    · intro h
      exact splitLines_ne_nil f.body (List.map_eq_nil_iff.mp h)
    · intro l hl
      obtain ⟨x, hx, rfl⟩ := List.mem_map.mp hl
      have hnn := splitLines_no_newline f.body x hx
      by_cases hp : sep.isPrefixOf x
      · simp only [hp, if_true]
        intro hmem
        rcases List.mem_cons.mp hmem with hsp | hmem
        · exact absurd hsp.symm (by decide)
        · exact hnn hmem
      · simp only [hp, if_false]
        exact hnn
  have heq2 : (splitLines f.body).map
      (fun l => if sep.isPrefixOf l then ' ' :: l else l) = splitLines f.body := by
    rw [← hmap]
    exact congrArg splitLines heq
  obtain ⟨i, hi, hgl⟩ := List.getElem_of_mem hl0
  have hpt : (if sep.isPrefixOf (splitLines f.body)[i] then
      ' ' :: (splitLines f.body)[i] else (splitLines f.body)[i])
        = (splitLines f.body)[i] := by
    have := congrArg (fun ls => ls[i]?) heq2
    simpa [List.getElem?_map, List.getElem?_eq_getElem hi] using this
  rw [hgl, hpre, if_pos rfl] at hpt
  have hlen := congrArg List.length hpt
  simp at hlen

/-- Witness for C10 at a concrete colliding form. -/
theorem c10_adjust_mutates_form_witness :
    Form.valid listCodec collidingForm = true ∧
    check_separation defaultSeparation = true ∧
    (∃ l ∈ splitLines collidingForm.body, defaultSeparation.isPrefixOf l = true) ∧
    (∃ f', transmitter_init listCodec collidingForm defaultSeparation true = some f' ∧
      f'.body = adjust_body_string defaultSeparation collidingForm.body ∧
      f'.body ≠ collidingForm.body ∧
      transmitter_lifecycle listCodec collidingForm defaultSeparation true
        = some (f', transmitter_run_events defaultSeparation f')) :=
  ⟨by decide, by decide, by decide,
    c10_adjust_mutates_form Str listCodec collidingForm defaultSeparation
      (by decide) (by decide) (by decide)⟩

/-- C8: the receiver's exact-length read of zero bytes does not return the
empty byte string — Connection._check_length raises ValueError on length 0
— so reception of a form whose marker carries the appendix length 0 fails
instead of succeeding with an empty appendix. -/
theorem c8_zero_length_read_raises :
    receive_length_bytes 0 [] = none ∧
    receive_length_bytes 0 (strOf "abc") = none ∧
    process_separation defaultSeparation (strOf "$separation$0") = some 0 ∧
    receiver_receive defaultSeparation
      (transmitter_stream defaultSeparation zeroAppendixForm) = none := by
  decide

/-!  The commanding protocol (src/protocol/commanding.py). -/

/-- The apostrophe character (written by code point to keep string literals
plain). -/
def apos : Char := Char.ofNat 39

/-- CommandungForm.procure_title: str(self.__class__) with the front part
of the class representation removed, the trailing part removed, and the
remainder uppercased.  The removed pieces are the literal text between
angle bracket and quote and the word Form followed by quote and closing
angle bracket. -/
def procure_title (class_name_string : Str) : Str :=
  toUpperStr (pyReplace (strOf "Form" ++ [apos, '>']) []
    (pyReplace (strOf "<class " ++ [apos]) [] class_name_string))

/-- str(CommandForm) as Python renders it for the source package: the class
lives in the module network.protocol.commanding. -/
def commandFormClassString : Str :=
  strOf "<class " ++ [apos] ++ strOf "network.protocol.commanding.CommandForm"
    ++ [apos, '>']

inductive CommandingKind
  | command
  | ret
  | err
deriving DecidableEq

/-- CommandingBase.evaluate_commanding_form: dispatch on the received form
title; a title other than COMMAND, RETURN or ERROR raises ValueError
(modeled as none). -/
def evaluate_commanding_kind (title : Str) : Option CommandingKind :=
  if title = strOf "COMMAND" then some CommandingKind.command
  else if title = strOf "RETURN" then some CommandingKind.ret
  else if title = strOf "ERROR" then some CommandingKind.err
  else none

/-- C3: the title CommandungForm.procure_title computes for a call form is
the full module-qualified class path uppercased, not the literal COMMAND,
and evaluate_commanding_form does not recognize it.  (The repository's own
test test_commanding.py expects the synthesized form to equal one titled
COMMAND.) -/
theorem c3_call_form_title_not_command :
    procure_title commandFormClassString
      = strOf "NETWORK.PROTOCOL.COMMANDING.COMMAND" ∧
    procure_title commandFormClassString ≠ strOf "COMMAND" ∧
    evaluate_commanding_kind (procure_title commandFormClassString) = none := by
  decide

/-- The dead condition of ErrorForm.procure_form_appendix: the source tests
the constant False where its docstring promises a test of the encoder's
ability to serialize the exception. -/
def errorform_appendix_condition : Bool := false

/-- ErrorForm.procure_form_appendix: the appendix is meant per its docstring
to be the one-entry error mapping when the encoder can serialize the
exception, but the constant-false condition makes it the empty mapping
unconditionally. -/
def procure_form_appendix (exc : V) : List (Str × V) :=
  if errorform_appendix_condition then [(strOf "error", exc)] else []

/-- A codec that, like PickleAppendixEncoder, reports every value of its
domain serializable. -/
def pickleLikeCodec : AppendixEncoder Unit where
  encode := fun _ => some []
  decode := fun _ => some ()
  vlen := fun _ => 0

/-- C5 evaluated on the code: the synthesized error appendix is the empty
mapping for every exception, even when the codec reports the exception
encodable, because the condition in procure_form_appendix is the constant
False. -/
theorem c5_error_appendix_always_empty :
    (∀ (V : Type) (exc : V), procure_form_appendix exc = []) ∧
    AppendixEncoder.is_serializable pickleLikeCodec () = true ∧
    procure_form_appendix () ≠ [(strOf "error", ())] :=
  ⟨fun _ _ => rfl, by decide, by decide⟩

/-- CommandingForm.assemble_body_line: key and value joined by one colon. -/
def assemble_body_line (k v : Str) : Str := k ++ ':' :: v

/-- ErrorForm.procure_form_body: a name line and a message line, the message
first with every newline replaced by the empty string, then with every colon
replaced by a semicolon. -/
def procure_error_form_body (exception_name exception_message : Str) : List Str :=
  [assemble_body_line (strOf "name") exception_name,
   assemble_body_line (strOf "message")
     (pyReplace [':'] [';'] (pyReplace ['\n'] [] exception_message))]

/-- C9 (amended: newlines in the exception message are removed — replaced by
the empty string — not replaced by spaces): the error form body carries the
name verbatim and the message with every newline deleted and every colon
turned into a semicolon, the rest of the text preserved. -/
theorem c9_error_message_sanitized (nm msg : Str) :
    procure_error_form_body nm msg =
      [strOf "name:" ++ nm,
       strOf "message:" ++ (msg.filter (fun c => c != '\n')).map
         (fun c => if c = ':' then ';' else c)] := by
  rw [procure_error_form_body, pyReplace_single_filter, pyReplace_single_map]
  have h1 : strOf "name:" = strOf "name" ++ [':'] := rfl
  have h2 : strOf "message:" = strOf "message" ++ [':'] := rfl
  simp [assemble_body_line, h1, h2]

/-- Counterexample to C9 as stated: the message holding a newline between a
and b is sent as the message line with the newline deleted, not with the
newline replaced by a space. -/
theorem c9_counterexample :
    procure_error_form_body (strOf "E") (strOf "a\nb")
      = [strOf "name:E", strOf "message:ab"] ∧
    strOf "message:ab" ≠ strOf "message:a b" := by
  decide

/-!  The client call queue (src/protocol/commanding.py CommandingClient). -/

/-- A call tuple as CommandingClient.put_call builds it:
(priority, (call_id, command_name, pos_args, kw_args)).  The positional and
keyword payloads are type parameters; the queue order below never inspects
them when the call ids differ. -/
structure CallTuple (P K : Type) where
  priority : Int
  call_id : Str
  command_name : Str
  pos_args : P
  kw_args : K
deriving DecidableEq

/-- CommandingClient.put_call: append the freshly built call tuple to the
queue (the call id comes from _generate_id, a random hash, and enters the
model as an argument). -/
def put_call (q : List (CallTuple P K)) (priority : Int)
    (call_id command_name : Str) (pos : P) (kw : K) : List (CallTuple P K) :=
  q ++ [⟨priority, call_id, command_name, pos, kw⟩]

/-- Python string comparison: lexicographic on code points. -/
def strLt : Str → Str → Bool
  | [], [] => false
  | [], _ :: _ => true
  | _ :: _, [] => false
  | x :: xs, y :: ys =>
    if x.toNat < y.toNat then true
    else if y.toNat < x.toNat then false
    else strLt xs ys

/-- Python comparison of two queue entries, as the PriorityQueue heap uses
it: the priority first, ties broken by comparing the inner tuples, which
start with the call id string.  When the ids differ the comparison is
decided there; the model stops at the ids (on equal ids Python would read
on into the command name and the argument payloads, where comparing two
dicts raises TypeError), so the theorems below assume pairwise distinct
call ids. -/
def call_lt (a b : CallTuple P K) : Bool :=
  if a.priority < b.priority then true
  else if b.priority < a.priority then false
  else strLt a.call_id b.call_id

theorem strLt_irrefl (a : Str) : strLt a a = false := by
  induction a with
  | nil => rfl
  | cons x xs ih => simp [strLt, ih]
theorem strLt_trans (a : Str) : ∀ b c : Str,
    strLt a b = true → strLt b c = true → strLt a c = true := by
  induction a with
  | nil =>
    intro b c hab hbc
    cases b with
    | nil => cases hab
    | cons y ys =>
      cases c with
      | nil => cases hbc
      | cons z zs => rfl
  | cons x xs ih =>
    intro b c hab hbc
    cases b with
    | nil => cases hab
    | cons y ys =>
      cases c with
      | nil => cases hbc
      | cons z zs =>
        rw [strLt] at hab hbc ⊢
        by_cases hxy : x.toNat < y.toNat
        · by_cases hyz : y.toNat < z.toNat
          · rw [if_pos (show x.toNat < z.toNat by omega)]
          · rw [if_neg hyz] at hbc
            by_cases hzy : z.toNat < y.toNat
            · rw [if_pos hzy] at hbc
              cases hbc
            · rw [if_pos (show x.toNat < z.toNat by omega)]
        · rw [if_neg hxy] at hab
          by_cases hyx : y.toNat < x.toNat
          · rw [if_pos hyx] at hab
            cases hab
          · rw [if_neg hyx] at hab
            by_cases hyz : y.toNat < z.toNat
            · rw [if_pos (show x.toNat < z.toNat by omega)]
            · rw [if_neg hyz] at hbc
              by_cases hzy : z.toNat < y.toNat
              · rw [if_pos hzy] at hbc
                cases hbc
              · rw [if_neg hzy] at hbc
                rw [if_neg (show ¬ x.toNat < z.toNat by omega),
                  if_neg (show ¬ z.toNat < x.toNat by omega)]
                exact ih ys zs hab hbc

theorem strLt_eq_of_not_both (a : Str) : ∀ b : Str,
    strLt a b = false → strLt b a = false → a = b := by
  induction a with
  | nil =>
    intro b hab _
    cases b with
    | nil => rfl
    | cons y ys => cases hab
  | cons x xs ih =>
    intro b hab hba
    cases b with
    | nil => cases hba
    | cons y ys =>
      rw [strLt] at hab hba
      by_cases hxy : x.toNat < y.toNat
      · rw [if_pos hxy] at hab
        cases hab
      · by_cases hyx : y.toNat < x.toNat
        · rw [if_pos hyx] at hba
          cases hba
        · rw [if_neg hxy, if_neg hyx] at hab
          rw [if_neg hyx, if_neg hxy] at hba
          have hchar : x = y := by
            have hn : x.toNat = y.toNat := by omega
            have hv : x.val = y.val := UInt32.toNat.inj hn
            exact Char.ext hv
          rw [hchar, ih ys hab hba]

theorem call_lt_irrefl (a : CallTuple P K) : call_lt a a = false := by
  rw [call_lt, if_neg (by omega), if_neg (by omega), strLt_irrefl]

theorem call_lt_trans (a b c : CallTuple P K) (hab : call_lt a b = true)
    (hbc : call_lt b c = true) : call_lt a c = true := by
  rw [call_lt] at hab hbc ⊢
  by_cases h1 : a.priority < b.priority
  · by_cases h2 : b.priority < c.priority
    · rw [if_pos (by omega)]
    · rw [if_neg h2] at hbc
      by_cases h3 : c.priority < b.priority
      · rw [if_pos h3] at hbc
        cases hbc
      · rw [if_pos (by omega)]
  · rw [if_neg h1] at hab
    by_cases h4 : b.priority < a.priority
    · rw [if_pos h4] at hab
      cases hab
    · rw [if_neg h4] at hab
      by_cases h2 : b.priority < c.priority
      · rw [if_pos (by omega)]
      · rw [if_neg h2] at hbc
        by_cases h3 : c.priority < b.priority
        · rw [if_pos h3] at hbc
          cases hbc
        · rw [if_neg h3] at hbc
          rw [if_neg (by omega), if_neg (by omega)]
          exact strLt_trans a.call_id b.call_id c.call_id hab hbc

/-- Two entries neither of which compares below the other agree on the
fields the queue order reads: the priority and the call id. -/
theorem call_lt_keys_of_not (a b : CallTuple P K) (hab : call_lt a b = false)
    (hba : call_lt b a = false) :
    a.priority = b.priority ∧ a.call_id = b.call_id := by
  rw [call_lt] at hab hba
  by_cases h1 : a.priority < b.priority
  · rw [if_pos h1] at hab
    cases hab
  · by_cases h2 : b.priority < a.priority
    · rw [if_pos h2] at hba
      cases hba
    · rw [if_neg h1, if_neg h2] at hab
      rw [if_neg h2, if_neg h1] at hba
      exact ⟨by omega, strLt_eq_of_not_both a.call_id b.call_id hab hba⟩

/-- The queue order only reads the priority and the call id. -/
theorem call_lt_congr_left (a a' b : CallTuple P K)
    (hp : a.priority = a'.priority) (hid : a.call_id = a'.call_id) :
    call_lt a b = call_lt a' b := by
  rw [call_lt, call_lt, hp, hid]

/-- What PriorityQueue.get removes from the queue: the least entry under the
tuple comparison.  select_min c ds returns the minimum of c :: ds together
with the remaining entries in their original order. -/
def select_min (c : CallTuple P K) : List (CallTuple P K) →
    CallTuple P K × List (CallTuple P K)
  | [] => (c, [])
  | d :: ds =>
    if call_lt d c then
      ((select_min d ds).1, c :: (select_min d ds).2)
    else
      ((select_min c ds).1, d :: (select_min c ds).2)

theorem select_min_spec (ds : List (CallTuple P K)) : ∀ c : CallTuple P K,
    ((select_min c ds).1 :: (select_min c ds).2).Perm (c :: ds) ∧
    ∀ x ∈ c :: ds, call_lt x (select_min c ds).1 = false := by
  induction ds with
  | nil =>
    intro c
    refine ⟨List.Perm.refl _, ?_⟩
    intro x hx
    rcases List.mem_cons.mp hx with rfl | hx
    · exact call_lt_irrefl x
    · cases hx
  | cons d ds ih =>
    intro c
    by_cases hdc : call_lt d c = true
    · obtain ⟨perm1, min1⟩ := ih d
      have hsel : select_min c (d :: ds)
          = ((select_min d ds).1, c :: (select_min d ds).2) := by
        rw [select_min, if_pos hdc]
      rw [hsel]
      constructor
      · exact (List.Perm.swap c (select_min d ds).1 (select_min d ds).2).trans
          (List.Perm.cons c perm1)
      · intro x hx
        rcases List.mem_cons.mp hx with rfl | hx
        · cases hcs : call_lt x (select_min d ds).1 with
          | false => rfl
          | true =>
            have htr := call_lt_trans d x (select_min d ds).1 hdc hcs
            have hdm := min1 d (List.mem_cons_self d ds)
            rw [hdm] at htr
            exact (Bool.false_ne_true htr).elim
        · exact min1 x hx
    · obtain ⟨perm1, min1⟩ := ih c
      have hsel : select_min c (d :: ds)
          = ((select_min c ds).1, d :: (select_min c ds).2) := by
        rw [select_min, if_neg (by simp [hdc])]
      rw [hsel]
      have hdc2 : call_lt d c = false := by
        cases h : call_lt d c with
        | false => rfl
        | true => exact absurd h hdc
      constructor
      · exact (List.Perm.swap d (select_min c ds).1 (select_min c ds).2).trans
          ((List.Perm.cons d perm1).trans (List.Perm.swap c d ds))
      · intro x hx
        rcases List.mem_cons.mp hx with rfl | hx
        · exact min1 x (List.mem_cons_self x ds)
        · rcases List.mem_cons.mp hx with rfl | hx
          · cases hds : call_lt x (select_min c ds).1 with
            | false => rfl
            | true =>
              by_cases hcd : call_lt c x = true
              · have htr := call_lt_trans c x (select_min c ds).1 hcd hds
                have hcm := min1 c (List.mem_cons_self c ds)
                rw [hcm] at htr
                exact (Bool.false_ne_true htr).elim
              · have hcd2 : call_lt c x = false := by
                  cases h : call_lt c x with
                  | false => rfl
                  | true => exact absurd h hcd
                obtain ⟨hp, hid⟩ := call_lt_keys_of_not x c hdc2 hcd2
                have hcm := min1 c (List.mem_cons_self c ds)
                rw [call_lt_congr_left x c (select_min c ds).1 hp hid, hcm] at hds
                exact (Bool.false_ne_true hds).elim
          · exact min1 x (List.mem_cons_of_mem c hx)

/-- The order in which the client worker empties the queue: repeatedly pop
the least entry.  The fuel is the queue length; popping preserves the length
of the remainder minus one, so the fuel never runs out. -/
def dequeue_aux : Nat → List (CallTuple P K) → List (CallTuple P K)
  | 0, _ => []
  | _ + 1, [] => []
  | fuel + 1, c :: cs =>
    (select_min c cs).1 :: dequeue_aux fuel (select_min c cs).2

def dequeue_order (q : List (CallTuple P K)) : List (CallTuple P K) :=
  dequeue_aux q.length q

theorem dequeue_aux_spec : ∀ (fuel : Nat) (q : List (CallTuple P K)),
    q.length ≤ fuel →
    (dequeue_aux fuel q).Perm q ∧
    (dequeue_aux fuel q).Pairwise (fun a b => call_lt b a = false) := by
  intro fuel
  induction fuel with
  | zero =>
    intro q hq
    have : q = [] := List.eq_nil_of_length_eq_zero (by omega)
    subst this
    exact ⟨List.Perm.refl _, List.Pairwise.nil⟩
  | succ fuel ih =>
    intro q hq
    cases q with
    | nil => exact ⟨List.Perm.refl _, List.Pairwise.nil⟩
    | cons c cs =>
      obtain ⟨perm1, min1⟩ := select_min_spec cs c
      have hlen : (select_min c cs).2.length = cs.length := by
        have := perm1.length_eq
        simp at this
        omega
      have hfuel2 : (select_min c cs).2.length ≤ fuel := by
        simp at hq
        omega
      obtain ⟨dperm, dpair⟩ := ih (select_min c cs).2 hfuel2
      have hstep : dequeue_aux (fuel + 1) (c :: cs)
          = (select_min c cs).1 :: dequeue_aux fuel (select_min c cs).2 := rfl
      rw [hstep]
      constructor
      · exact (List.Perm.cons (select_min c cs).1 dperm).trans perm1
      · refine List.Pairwise.cons ?_ dpair
        intro y hy
        have hy2 : y ∈ (select_min c cs).2 := dperm.mem_iff.mp hy
        have hy3 : y ∈ c :: cs := perm1.mem_iff.mp (List.mem_cons_of_mem _ hy2)
        exact min1 y hy3

/-- C4 (amended: ties at equal priority value are broken by the Python tuple
comparison of the inner call tuples — the randomly generated call id string
first — not by enqueue order): with pairwise distinct call ids the worker
dequeues a permutation of the enqueued calls that is strictly ascending
under the queue comparison: ascending priority value, and at equal
priorities ascending call id string. -/
theorem c4_dequeue_sorted_by_priority_then_id (P K : Type)
    (q : List (CallTuple P K))
    (hids : q.Pairwise (fun a b => a.call_id ≠ b.call_id)) :
    (dequeue_order q).Perm q ∧
    (dequeue_order q).Pairwise (fun a b => call_lt a b = true) := by
  obtain ⟨perm, pair⟩ := dequeue_aux_spec q.length q (Nat.le_refl _)
  rw [dequeue_order] at *
  refine ⟨perm, ?_⟩
  have hids2 : (dequeue_aux q.length q).Pairwise
      (fun a b => a.call_id ≠ b.call_id) :=
    (List.Perm.pairwise_iff (fun {a b} h => Ne.symm h) perm).mpr hids
  have hboth := pair.and hids2
  refine hboth.imp ?_
  intro a b hab
  obtain ⟨hna, hid⟩ := hab
  cases h : call_lt a b with
  | true => rfl
  | false =>
    obtain ⟨-, hideq⟩ := call_lt_keys_of_not a b h hna
    exact absurd hideq hid

/-- Two calls enqueued in order at the same priority, the first with the
lexicographically larger call id. -/
def twoCallQueue : List (CallTuple Unit Unit) :=
  put_call (put_call [] 1 (strOf "0xb") (strOf "first") () ())
    1 (strOf "0xa") (strOf "second") () ()

/-- Counterexample to C4 as stated: at equal priority the queue is not FIFO
— the call enqueued second is dequeued first because its call id string
compares lower. -/
theorem c4_counterexample :
    twoCallQueue = [⟨1, strOf "0xb", strOf "first", (), ()⟩,
      ⟨1, strOf "0xa", strOf "second", (), ()⟩] ∧
    dequeue_order twoCallQueue = [⟨1, strOf "0xa", strOf "second", (), ()⟩,
      ⟨1, strOf "0xb", strOf "first", (), ()⟩] ∧
    dequeue_order twoCallQueue ≠ twoCallQueue := by
  decide

/-- The priority-ordering scenario of the spec (three calls, priorities
5, 1, 1, enqueued in that order) with distinct call ids. -/
def threeCallQueue : List (CallTuple Unit Unit) :=
  put_call (put_call (put_call [] 5 (strOf "0xc") (strOf "A") () ())
    1 (strOf "0xa") (strOf "B") () ()) 1 (strOf "0xb") (strOf "C") () ()

/-- Witness for the amended C4 theorem at a concrete queue. -/
theorem c4_dequeue_sorted_witness :
    threeCallQueue.Pairwise (fun a b => a.call_id ≠ b.call_id) ∧
    ((dequeue_order threeCallQueue).Perm threeCallQueue ∧
      (dequeue_order threeCallQueue).Pairwise (fun a b => call_lt a b = true)) :=
  ⟨by decide,
    c4_dequeue_sorted_by_priority_then_id Unit Unit threeCallQueue (by decide)⟩

/-!  The client main loop and the poller hook
(src/protocol/commanding.py CommandingClient). -/

/-- CommandingClient.is_polling as the source writes it: the test reads
"the polling interval is None", although its docstring describes the flag
as whether polling is enabled. -/
def is_polling (polling_interval : Option Int) : Bool :=
  polling_interval.isNone

/-- One iteration of the CommandingClient.run main loop in the empty-queue
branch: the idle time is recomputed from the clock and the stored last
activity timestamp, and nothing else happens — the whole keepalive block
(send request, read ack, poll with the built-in time call, update the last
activity time) sits inside a triple-quoted string literal in the source,
which Python evaluates and discards, so the iteration emits no wire event
and leaves the activity timestamp untouched.  Returned value: the new
idle_time and the emitted wire events. -/
def client_empty_queue_iteration (now last_activity_timestamp : Int) :
    Int × List TxEvent :=
  (now - last_activity_timestamp, [])

/-- C6 evaluated on the code: with polling configured (interval 1), an empty
queue and an idle time far past the interval, an iteration of the main loop
emits nothing — no request line, no time call — and the is_polling flag is
false exactly when an interval is configured. -/
theorem c6_keepalive_never_fires :
    (∀ now last : Int, client_empty_queue_iteration now last = (now - last, [])) ∧
    client_empty_queue_iteration 10 0 = (10, []) ∧
    is_polling (some 1) = false ∧
    is_polling none = true :=
  ⟨fun _ _ => rfl, by decide, by decide, by decide⟩
